import Mathlib

set_option maxRecDepth 8000

/-!
Shallow embedding of the ctags index / comment-aware rename tool
(`ctags_mcp_tool.py`, `ctags_cursor_integration.py`, `refactor_tool_advanced.py`).
Strings are `List Char`; the file system is an association list from path to
`some content` (readable) or `none` (existing but unreadable); the
subprocess hop between the refactor tool and the ctags tool is collapsed
into direct calls, keeping the adapter-level result caps.
-/

/-- Characters of a string literal, used to write concrete inputs. -/
def chars (s : String) : List Char := s.data

/-- Python `str.strip`: drop whitespace from both ends. -/
def pyStrip (s : List Char) : List Char :=
  ((s.dropWhile Char.isWhitespace).reverse.dropWhile Char.isWhitespace).reverse

/-- Python `str.split(sep)` for a one-character separator: keeps empty pieces,
never returns an empty list. -/
def pySplit (sep : Char) : List Char → List (List Char)
  | [] => [[]]
  | c :: rest =>
    if c = sep then [] :: pySplit sep rest
    else
      match pySplit sep rest with
      | [] => [[c]]
      | p :: ps => (c :: p) :: ps

/-- Python `sep.join(pieces)` for a one-character separator. -/
def joinSep (sep : Char) : List (List Char) → List Char
  | [] => []
  | [x] => x
  | x :: y :: ys => x ++ sep :: joinSep sep (y :: ys)

/-- Python file iteration / `readlines`: lines keep their trailing newline;
a final line without a newline is still produced; empty content gives no lines. -/
def readlines : List Char → List (List Char)
  | [] => []
  | c :: rest =>
    if c = '\n' then [c] :: readlines rest
    else
      match readlines rest with
      | [] => [[c]]
      | l :: ls => (c :: l) :: ls

/-- Python `s.find(pat)`: index of the first occurrence of `pat` in `s`,
`none` when absent (Python returns `-1` there). -/
def findSub (pat : List Char) : List Char → Option Nat
  | [] => if pat.isPrefixOf [] then some 0 else none
  | c :: rest =>
    if pat.isPrefixOf (c :: rest) then some 0
    else (findSub pat rest).map (· + 1)

/-- Python `s.find(pat, start)`: first occurrence at index at least `start`,
`none` when absent or when `start` exceeds the length. -/
def findFrom (s pat : List Char) (start : Nat) : Option Nat :=
  if start ≤ s.length then (findSub pat (s.drop start)).map (· + start) else none

/-- Python `pat in s`: substring test. -/
def substrOf (pat s : List Char) : Bool := (findSub pat s).isSome

/-- Python `str.replace` for a nonempty pattern, replacing non-overlapping
occurrences left to right. Each step consumes at least one character of the
scanned string, so `s.length` fuel is exact. -/
def replaceAllAux (old new : List Char) : Nat → List Char → List Char
  | 0, s => s
  | _ + 1, [] => []
  | fuel + 1, c :: rest =>
    if old.isPrefixOf (c :: rest) then
      new ++ replaceAllAux old new fuel ((c :: rest).drop old.length)
    else c :: replaceAllAux old new fuel rest

/-- Python `s.replace(old, new)`; an empty pattern inserts `new` at every
position, including both ends. -/
def replaceAll (old new s : List Char) : List Char :=
  if old.isEmpty then new ++ s.flatMap (fun c => c :: new)
  else replaceAllAux old new s.length s

/-- Python `<` on strings: lexicographic order by code point. -/
def strLt : List Char → List Char → Bool
  | [], [] => false
  | [], _ :: _ => true
  | _ :: _, [] => false
  | a :: as, b :: bs =>
    if a < b then true
    else if b < a then false
    else strLt as bs

/-- Python `str.isdigit` on the ASCII inputs that occur here: nonempty and
all characters are digits. -/
def pyIsDigit (s : List Char) : Bool := !s.isEmpty && s.all Char.isDigit

/-- Decimal value of an all-digit string (Python `int`). -/
def digitsToNat (s : List Char) : Nat :=
  s.foldl (fun acc c => acc * 10 + (c.toNat - 48)) 0

/-- Python `field.split(':', 1)` guarded by `':' in field`: split at the first
colon, `none` when there is no colon. -/
def colonSplit : List Char → Option (List Char × List Char)
  | [] => none
  | c :: rest =>
    if c = ':' then some ([], rest)
    else (colonSplit rest).map (fun kv => (c :: kv.1, kv.2))

/-- One parsed ctags record (the dictionary built by
`CtagsParser._parse_tag_line`). -/
structure Tag where
  name : List Char
  filename : List Char
  excmd : List Char
  kind : List Char
  line : Nat
  typeref : List Char
  scope : List Char
  access : List Char
  signature : List Char
  line_number : Nat
deriving DecidableEq

/-- Python dict lookup with default `''` over key:value pairs inserted in
order: the last binding of a key wins. -/
def extGet (pairs : List (List Char × List Char)) (key : List Char) : List Char :=
  match pairs.reverse.find? (fun kv => kv.1 == key) with
  | some kv => kv.2
  | none => []

/-- `CtagsParser._parse_tag_line`: split the line on tabs; fewer than three
fields is rejected; extension key:value pairs are read from the fourth field
only (after stripping a trailing `;"`), so fields past the fourth are ignored. -/
def parse_tag_line (line : List Char) (line_num : Nat) : Option Tag :=
  match pySplit '\t' line with
  | p0 :: p1 :: p2 :: rest =>
    let pairs :=
      match rest with
      | [] => []
      | p3 :: _ =>
        let ep := if (chars ";\"").isSuffixOf p3 then p3.take (p3.length - 2) else p3
        (pySplit '\t' ep).filterMap colonSplit
    let lv := extGet pairs (chars "line")
    some {
      name := p0, filename := p1, excmd := p2,
      kind := extGet pairs (chars "kind"),
      line := if pyIsDigit lv then digitsToNat lv else 0,
      typeref := extGet pairs (chars "typeref"),
      scope := extGet pairs (chars "scope"),
      access := extGet pairs (chars "access"),
      signature := extGet pairs (chars "signature"),
      line_number := line_num }
  | _ => none

/-- `CtagsParser._load_tags` over given file content: strip each line, skip
`!_TAG_` metadata lines, collect the records of the lines that parse. -/
def load_tags (content : List Char) : List Tag :=
  (readlines content).enum.filterMap (fun il =>
    let s := pyStrip il.2
    if (chars "!_TAG_").isPrefixOf s then none
    else parse_tag_line s (il.1 + 1))

/-- File-system model: association list from file name to `some content`
(readable file) or `none` (file that exists but cannot be read). -/
abbrev FS := List (List Char × Option (List Char))

/-- Whether a path exists, and its content when it is readable. -/
def fsEntry (fs : FS) (p : List Char) : Option (Option (List Char)) :=
  (fs.find? (fun e => e.1 == p)).map (fun e => e.2)

/-- Successful read: the path exists and is readable. -/
def fsRead (fs : FS) (p : List Char) : Option (List Char) :=
  match fsEntry fs p with
  | some (some c) => some c
  | _ => none

/-- Overwrite (or create) a file with readable content. -/
def fsWrite : FS → List Char → List Char → FS
  | [], p, c => [(p, some c)]
  | e :: rest, p, c => if e.1 = p then (p, some c) :: rest else e :: fsWrite rest p c

/-- Loading the tag table from the file system: a missing file yields an empty
index (`_load_tags` returns after the existence check); an existing but
unreadable file makes the unguarded `open` raise, modelled as `Except.error`. -/
def load_tags_result (fs : FS) (p : List Char) : Except Unit (List Tag) :=
  match fsEntry fs p with
  | none => Except.ok []
  | some none => Except.error ()
  | some (some c) => Except.ok (load_tags c)

/-- Sort comparison used by `find_symbols`: Python tuple order on
`(filename, line)`. -/
def tagLe (a b : Tag) : Bool :=
  strLt a.filename b.filename || (a.filename == b.filename && decide (a.line ≤ b.line))

/-- `CtagsParser.find_symbols`: optional kind / filename filters (Python
truthiness: an empty filter string disables the filter), case-insensitive
substring match of the query against the name, result sorted by
`(filename, line)`. -/
def find_symbols (tags : List Tag) (query : List Char)
    (kind : Option (List Char)) (fname : Option (List Char)) : List Tag :=
  let ql := query.map Char.toLower
  let results := tags.filter (fun t =>
    (match kind with
     | some k => !(!k.isEmpty && !(t.kind == k))
     | none => true) &&
    (match fname with
     | some f => !(!f.isEmpty && !(substrOf f t.filename))
     | none => true) &&
    substrOf ql (t.name.map Char.toLower))
  results.mergeSort tagLe

/-- `CtagsParser.find_definition`: exact-name matches (in tag-table order)
when any exist, otherwise the `find_symbols` fallback. -/
def find_definition (tags : List Tag) (symbol : List Char) : List Tag :=
  let exact := tags.filter (fun t => t.name == symbol)
  if exact.isEmpty then find_symbols tags symbol none none else exact

/-- `CtagsParser.find_references`: records whose name or typeref contains the
symbol as a substring. -/
def find_references (tags : List Tag) (symbol : List Char) : List Tag :=
  tags.filter (fun t => substrOf symbol t.name || substrOf symbol t.typeref)

def slashSlash : List Char := ['/', '/']

def slashStar : List Char := ['/', '*']

def starSlash : List Char := ['*', '/']

/-- `AdvancedRefactorTool.is_comment_line`: the stripped line starts with a
comment marker, or contains a closed block comment. -/
def is_comment_line (line : List Char) : Bool :=
  let s := pyStrip line
  slashSlash.isPrefixOf s || slashStar.isPrefixOf s || ['*'].isPrefixOf s ||
  (substrOf slashStar s && substrOf starSlash s) ||
  (chars "///").isPrefixOf s || (chars "* @").isPrefixOf s

/-- `AdvancedRefactorTool.is_in_comment`: a `//` strictly before the position,
or a `/*` strictly before it whose matching `*/` (the first one at or after
that `/*`) is absent from the line or begins strictly after the position. -/
def is_in_comment (line : List Char) (position : Nat) : Bool :=
  (match findSub slashSlash line with
   | some p => decide (p < position)
   | none => false) ||
  (match findSub slashStar line with
   | some b =>
     if b < position then
       match findFrom line starSlash b with
       | none => true
       | some e => decide (e > position)
     else false
   | none => false)

/-- One occurrence record built by `find_symbol_occurrences`. -/
structure Occ where
  file : List Char
  line : Nat
  column : Nat
  context : List Char
  matched : List Char
deriving DecidableEq

/-- The `while` scan of `find_symbol_occurrences`: find each occurrence of the
symbol from `start` on, keep the positions not inside a comment, and advance
by one character each time. `start` strictly increases and the find fails once
`start` exceeds the length, so `line.length + 2` fuel covers every iteration. -/
def occScanAux (symbol line : List Char) : Nat → Nat → List Nat
  | 0, _ => []
  | fuel + 1, start =>
    match findFrom line symbol start with
    | none => []
    | some pos =>
      if is_in_comment line pos then occScanAux symbol line fuel (pos + 1)
      else pos :: occScanAux symbol line fuel (pos + 1)

def occScan (symbol line : List Char) : List Nat :=
  occScanAux symbol line (line.length + 2) 0

/-- The per-file loop of `find_symbol_occurrences`: scan every non-comment
line containing the symbol; lines are numbered from 1, columns from 1, the
context is the stripped line. -/
def scanFile (symbol fname content : List Char) : List Occ :=
  (readlines content).enum.flatMap (fun il =>
    if is_comment_line il.2 then []
    else if substrOf symbol il.2 then
      (occScan symbol il.2).map (fun pos =>
        { file := fname, line := il.1 + 1, column := pos + 1,
          context := pyStrip il.2, matched := symbol })
    else [])

/-- File names of the references handed to the refactor tool:
`CtagsMCPTool.find_references` caps the list at 50 and the integration layer
forwards each record's filename as the `file` field. -/
def findAllRefFiles (tags : List Tag) (symbol : List Char) : List (List Char) :=
  ((find_references tags symbol).take 50).map (fun t => t.filename)

/-- Scan of one referenced file; files that do not exist or cannot be read
contribute nothing (the existence check and the caught read error). -/
def scanFileIn (fs : FS) (symbol fname : List Char) : List Occ :=
  match fsRead fs fname with
  | none => []
  | some c => scanFile symbol fname c

/-- `AdvancedRefactorTool.find_symbol_occurrences`: the raw reference list is
iterated without deduplicating files. -/
def find_symbol_occurrences (tags : List Tag) (fs : FS) (symbol : List Char) : List Occ :=
  (findAllRefFiles tags symbol).flatMap (fun fn => scanFileIn fs symbol fn)

/-- One proposed change of a rename preview. -/
structure Change where
  file : List Char
  line : Nat
  column : Nat
  old_line : List Char
  new_line : List Char
deriving DecidableEq

/-- The rename preview structure. -/
structure Preview where
  old_symbol : List Char
  new_symbol : List Char
  total_occurrences : Nat
  files_affected : List (List Char)
  changes : List Change
  skipped_comments : Nat
deriving DecidableEq

/-- Python `list(set(xs))`, modelled keeping the first occurrence of each
element (only membership in the result is relied upon). -/
def dedupFirst : List (List Char) → List (List Char)
  | [] => []
  | x :: rest => x :: (dedupFirst rest).filter (fun y => !(y == x))

/-- The comment count of `preview_rename`: over the raw (not deduplicated)
reference list, lines that contain the symbol and are classified as comment
lines; unreadable files are skipped by the bare `except`. -/
def countSkipped (tags : List Tag) (fs : FS) (old : List Char) : Nat :=
  (findAllRefFiles tags old).foldl (fun acc fn =>
    match fsRead fs fn with
    | none => acc
    | some c => acc + (readlines c).countP (fun l => substrOf old l && is_comment_line l)) 0

/-- `AdvancedRefactorTool.preview_rename`: each change's proposed new line is
the whole stripped context with every occurrence of the old symbol replaced. -/
def preview_rename (tags : List Tag) (fs : FS) (old new : List Char) : Preview :=
  let occurrences := find_symbol_occurrences tags fs old
  { old_symbol := old, new_symbol := new,
    total_occurrences := occurrences.length,
    files_affected := dedupFirst (occurrences.map (fun o => o.file)),
    changes := occurrences.map (fun o =>
      { file := o.file, line := o.line, column := o.column,
        old_line := o.context, new_line := replaceAll old new o.context }),
    skipped_comments := countSkipped tags fs old }

/-- The replacement `while` loop of `rename_symbol`: replace each occurrence
whose position is not inside a comment and jump past the replacement, advance
one character past comment-positioned ones. The source loop does not
terminate for an empty symbol; for a nonempty symbol the distance from the
scan position to the end of the line shrinks every iteration, so
`line.length + 2` fuel covers every iteration. -/
def rewriteLineAux (old new : List Char) : Nat → List Char → Nat → List Char
  | 0, cur, _ => cur
  | fuel + 1, cur, start =>
    match findFrom cur old start with
    | none => cur
    | some pos =>
      if is_in_comment cur pos then rewriteLineAux old new fuel cur (pos + 1)
      else rewriteLineAux old new fuel
        (cur.take pos ++ new ++ cur.drop (pos + old.length)) (pos + new.length)

def rewriteLine (old new line : List Char) : List Char :=
  rewriteLineAux old new (line.length + 2) line 0

/-- One scan event of the replacement loop: the line state at that step, the
match position the `find` returned, and whether the loop substituted there. -/
structure RewriteEvent where
  state : List Char
  pos : Nat
  replaced : Bool
deriving DecidableEq

/-- Instrumented variant of `rewriteLineAux` with identical control flow: it
additionally records one event per scanned match of the symbol. Its first
component always equals `rewriteLineAux` (proved in
`rewriteLineEvents_fst`). -/
def rewriteLineEvents (old new : List Char) :
    Nat → List Char → Nat → List Char × List RewriteEvent
  | 0, cur, _ => (cur, [])
  | fuel + 1, cur, start =>
    match findFrom cur old start with
    | none => (cur, [])
    | some pos =>
      if is_in_comment cur pos then
        ((rewriteLineEvents old new fuel cur (pos + 1)).1,
         ⟨cur, pos, false⟩ :: (rewriteLineEvents old new fuel cur (pos + 1)).2)
      else
        ((rewriteLineEvents old new fuel
            (cur.take pos ++ new ++ cur.drop (pos + old.length)) (pos + new.length)).1,
         ⟨cur, pos, true⟩ :: (rewriteLineEvents old new fuel
            (cur.take pos ++ new ++ cur.drop (pos + old.length)) (pos + new.length)).2)

/-- Per-line transform of the apply phase of `rename_symbol`: comment lines
and lines without the symbol are left as they are. -/
def applyLineTransform (old new line : List Char) : List Char :=
  if substrOf old line && !is_comment_line line then rewriteLine old new line else line

/-- Per-file transform of the apply phase: split on newlines, rewrite each
line, join back with newlines. -/
def applyFileContent (old new content : List Char) : List Char :=
  joinSep '\n' ((pySplit '\n' content).map (applyLineTransform old new))

/-- Add a file to the changed-file set. -/
def insertSet (x : List Char) (l : List (List Char)) : List (List Char) :=
  if x ∈ l then l else x :: l

/-- One step of the apply fold of `rename_symbol`: re-read the change's file
from the evolving file system, rewrite it, record the file as changed;
unreadable or missing files are skipped by the caught exception. -/
def applyStep (old new : List Char) (acc : List (List Char) × FS) (ch : Change) :
    List (List Char) × FS :=
  match fsRead acc.2 ch.file with
  | none => acc
  | some content =>
    (insertSet ch.file acc.1, fsWrite acc.2 ch.file (applyFileContent old new content))

/-- `AdvancedRefactorTool.rename_symbol` with `dry_run = False`: recompute the
preview, then process every proposed change in order. Returns the
changed-file set and the final file system. -/
def rename_symbol (tags : List Tag) (fs : FS) (old new : List Char) :
    List (List Char) × FS :=
  (preview_rename tags fs old new).changes.foldl (applyStep old new) ([], fs)

/-- Specification-side predicate: `pat` occurs in `s` at index `i`. -/
def MatchAt (pat s : List Char) (i : Nat) : Prop :=
  ∃ pre suf, s = pre ++ pat ++ suf ∧ pre.length = i

/-- Decidable form of `MatchAt`. -/
def matchAtB (pat s : List Char) (i : Nat) : Bool :=
  pat.isPrefixOf (s.drop i) && decide (i ≤ s.length)

/-- Whether a record list is sorted ascending by `(filename, line)`. -/
def isSortedByFileLine : List Tag → Bool
  | [] => true
  | [_] => true
  | a :: b :: rest => tagLe a b && isSortedByFileLine (b :: rest)

/-- The C1 scenario's tag table: the single entry of the end-to-end example. -/
def tagsC1 : List Tag := load_tags (chars "foo\tsrc/a.c\t10;\"\tkind:function\tline:10")

/-- The C1 scenario's file system: `src/a.c` with its single line. -/
def fsC1 : FS := [(chars "src/a.c", some (chars "int foo() { return 1; } // calls foo"))]

/-- The C1 preview of renaming `foo` to `bar`. -/
def pvC1 : Preview := preview_rename tagsC1 fsC1 (chars "foo") (chars "bar")

/-- The C4 witness scenario: one tag for `foo` in file `a` containing `foo`. -/
def tags4 : List Tag := load_tags (chars "foo\ta\tcmd")

def fs4 : FS := [(chars "a", some (chars "foo"))]

/-- The C5 witness scenario: an exact match `foo` and a superstring `foobar`. -/
def tags5 : List Tag := load_tags (chars "foo\ta\tc\nfoobar\tb\tc")

def tag5a : Tag := ⟨chars "foo", chars "a", chars "c", [], 0, [], [], [], [], 1⟩

/-- The C7 counterexample scenario: two tags named `x`, files `b` then `a`. -/
def tags7 : List Tag := load_tags (chars "x\tb\tcmd\nx\ta\tcmd")

/-- The C9 witness scenario: tags `foo` and `foox`, both in file `a`, so the
reference list names `a` twice. -/
def tags9 : List Tag := load_tags (chars "foo\ta\tc\nfoox\ta\tc")

def fs9 : FS := [(chars "a", some (chars "foo"))]

def o9 : Occ := ⟨chars "a", 1, 1, chars "foo", chars "foo"⟩

/-- The C10 witness scenario rewrites the mixed line `foo(); // foo`: its
first scan event substitutes the code-side `foo` at position 0. -/
def evC10a : RewriteEvent := ⟨chars "foo(); // foo", 0, true⟩

/-- The second scan event of the C10 witness scenario meets the comment-side
`foo` at position 10 of the partially rewritten line and does not substitute. -/
def evC10b : RewriteEvent := ⟨chars "bar(); // foo", 10, false⟩

theorem isPrefixOf_exists {p s : List Char} :
    p.isPrefixOf s = true ↔ ∃ t, s = p ++ t := by
  induction p generalizing s with
  | nil => simp [List.isPrefixOf]
  | cons a p ih =>
    cases s with
    | nil => simp [List.isPrefixOf]
    | cons b s =>
      simp only [List.isPrefixOf, Bool.and_eq_true, beq_iff_eq, ih]
      constructor
      · rintro ⟨rfl, t, rfl⟩
        exact ⟨t, rfl⟩
      · rintro ⟨t, ht⟩
        rw [List.cons_append] at ht
        injection ht with h1 h2
        exact ⟨h1.symm, t, h2⟩

theorem matchAt_zero {pat s : List Char} : MatchAt pat s 0 ↔ ∃ t, s = pat ++ t := by
  constructor
  · rintro ⟨pre, suf, rfl, hl⟩
    rw [List.length_eq_zero] at hl
    subst hl
    exact ⟨suf, rfl⟩
  · rintro ⟨t, rfl⟩
    exact ⟨[], t, rfl, rfl⟩

theorem matchAt_cons {pat s : List Char} {c : Char} {i : Nat} :
    MatchAt pat (c :: s) (i + 1) ↔ MatchAt pat s i := by
  constructor
  · rintro ⟨pre, suf, he, hl⟩
    cases pre with
    | nil => simp at hl
    | cons d pre =>
      rw [List.cons_append, List.cons_append] at he
      injection he with h1 h2
      simp only [List.length_cons, Nat.add_right_cancel_iff] at hl
      exact ⟨pre, suf, h2, hl⟩
  · rintro ⟨pre, suf, rfl, rfl⟩
    exact ⟨c :: pre, suf, rfl, by simp⟩

theorem matchAt_le {pat s : List Char} {i : Nat} (h : MatchAt pat s i) :
    i + pat.length ≤ s.length := by
  rcases h with ⟨pre, suf, rfl, rfl⟩
  simp only [List.length_append]
  omega

theorem findSub_matchAt {pat s : List Char} {i : Nat} (h : findSub pat s = some i) :
    MatchAt pat s i := by
  induction s generalizing i with
  | nil =>
    simp only [findSub] at h
    by_cases hp : pat.isPrefixOf ([] : List Char) = true
    · rw [if_pos hp] at h
      injection h with h
      subst h
      rcases isPrefixOf_exists.mp hp with ⟨t, ht⟩
      exact matchAt_zero.mpr ⟨t, ht⟩
    · rw [if_neg hp] at h
      cases h
  | cons c rest ih =>
    simp only [findSub] at h
    by_cases hp : pat.isPrefixOf (c :: rest) = true
    · rw [if_pos hp] at h
      injection h with h
      subst h
      rcases isPrefixOf_exists.mp hp with ⟨t, ht⟩
      exact matchAt_zero.mpr ⟨t, ht⟩
    · rw [if_neg hp] at h
      rcases Option.map_eq_some'.mp h with ⟨i', hi', hii⟩
      subst hii
      exact matchAt_cons.mpr (ih hi')

theorem findSub_min {pat s : List Char} {i : Nat} (h : findSub pat s = some i) :
    ∀ j, j < i → ¬ MatchAt pat s j := by
  induction s generalizing i with
  | nil =>
    simp only [findSub] at h
    by_cases hp : pat.isPrefixOf ([] : List Char) = true
    · rw [if_pos hp] at h
      injection h with h
      subst h
      intro j hj
      omega
    · rw [if_neg hp] at h
      cases h
  | cons c rest ih =>
    simp only [findSub] at h
    by_cases hp : pat.isPrefixOf (c :: rest) = true
    · rw [if_pos hp] at h
      injection h with h
      subst h
      intro j hj
      omega
    · rw [if_neg hp] at h
      rcases Option.map_eq_some'.mp h with ⟨i', hi', hii⟩
      subst hii
      intro j hj hm
      cases j with
      | zero =>
        rcases matchAt_zero.mp hm with ⟨t, ht⟩
        exact hp (isPrefixOf_exists.mpr ⟨t, ht⟩)
      | succ j =>
        exact ih hi' j (by omega) (matchAt_cons.mp hm)

theorem findSub_none {pat s : List Char} (h : findSub pat s = none) :
    ∀ i, ¬ MatchAt pat s i := by
  induction s with
  | nil =>
    simp only [findSub] at h
    by_cases hp : pat.isPrefixOf ([] : List Char) = true
    · rw [if_pos hp] at h
      cases h
    · intro i hm
      rcases hm with ⟨pre, suf, he, hl⟩
      rw [List.append_assoc] at he
      rcases List.append_eq_nil.mp he.symm with ⟨hpre, hps⟩
      rcases List.append_eq_nil.mp hps with ⟨hpat, hsuf⟩
      subst hpat
      simp [List.isPrefixOf] at hp
  | cons c rest ih =>
    simp only [findSub] at h
    by_cases hp : pat.isPrefixOf (c :: rest) = true
    · rw [if_pos hp] at h
      cases h
    · rw [if_neg hp] at h
      have hr : findSub pat rest = none := by
        cases hfr : findSub pat rest with
        | none => rfl
        | some k => simp [hfr] at h
      intro i hm
      cases i with
      | zero =>
        rcases matchAt_zero.mp hm with ⟨t, ht⟩
        exact hp (isPrefixOf_exists.mpr ⟨t, ht⟩)
      | succ i => exact ih hr i (matchAt_cons.mp hm)

theorem findSub_of_matchAt {pat s : List Char} {i : Nat} (hm : MatchAt pat s i) :
    ∃ j, findSub pat s = some j ∧ j ≤ i := by
  cases hf : findSub pat s with
  | none => exact absurd hm (findSub_none hf i)
  | some j =>
    refine ⟨j, rfl, ?_⟩
    by_contra hlt
    exact findSub_min hf i (by omega) hm

theorem matchAt_drop {pat s : List Char} {k i : Nat} (hk : k ≤ s.length) :
    MatchAt pat (s.drop k) i ↔ MatchAt pat s (k + i) := by
  induction k generalizing s with
  | zero => simp
  | succ k ih =>
    cases s with
    | nil => simp at hk
    | cons c rest =>
      have hk' : k ≤ rest.length := by
        simp only [List.length_cons] at hk
        omega
      rw [List.drop_succ_cons, ih hk']
      have he : k + 1 + i = (k + i) + 1 := by omega
      rw [he]
      exact matchAt_cons.symm

theorem findFrom_some {s pat : List Char} {start e : Nat}
    (h : findFrom s pat start = some e) :
    start ≤ s.length ∧ start ≤ e ∧ MatchAt pat s e ∧
      ∀ j, start ≤ j → j < e → ¬ MatchAt pat s j := by
  unfold findFrom at h
  by_cases hs : start ≤ s.length
  · rw [if_pos hs] at h
    rcases Option.map_eq_some'.mp h with ⟨i, hi, hie⟩
    subst hie
    have hm := (matchAt_drop hs).mp (findSub_matchAt hi)
    rw [Nat.add_comm] at hm
    refine ⟨hs, by omega, hm, ?_⟩
    intro j hj1 hj2 hmj
    have hdj : MatchAt pat (s.drop start) (j - start) := by
      rw [matchAt_drop hs]
      have hje : start + (j - start) = j := by omega
      rw [hje]
      exact hmj
    exact findSub_min hi (j - start) (by omega) hdj
  · rw [if_neg hs] at h
    cases h

theorem findFrom_none {s pat : List Char} {start : Nat}
    (h : findFrom s pat start = none) (hs : start ≤ s.length) :
    ∀ j, start ≤ j → ¬ MatchAt pat s j := by
  unfold findFrom at h
  rw [if_pos hs] at h
  have hn : findSub pat (s.drop start) = none := by
    cases hf : findSub pat (s.drop start) with
    | none => rfl
    | some k => simp [hf] at h
  intro j hj hm
  have hdj : MatchAt pat (s.drop start) (j - start) := by
    rw [matchAt_drop hs]
    have hje : start + (j - start) = j := by omega
    rw [hje]
    exact hm
  exact findSub_none hn _ hdj

theorem substrOf_iff {pat s : List Char} :
    substrOf pat s = true ↔ ∃ p q, s = p ++ pat ++ q := by
  unfold substrOf
  constructor
  · intro h
    rcases Option.isSome_iff_exists.mp h with ⟨i, hi⟩
    rcases findSub_matchAt hi with ⟨pre, suf, he, _⟩
    exact ⟨pre, suf, he⟩
  · rintro ⟨p, q, rfl⟩
    have hm : MatchAt pat (p ++ pat ++ q) p.length := ⟨p, q, rfl, rfl⟩
    rcases findSub_of_matchAt hm with ⟨j, hj, _⟩
    rw [hj]
    rfl

theorem matchAtB_iff {pat s : List Char} {i : Nat} :
    matchAtB pat s i = true ↔ MatchAt pat s i := by
  simp only [matchAtB, Bool.and_eq_true, decide_eq_true_eq]
  constructor
  · rintro ⟨hp, hle⟩
    rcases isPrefixOf_exists.mp hp with ⟨t, ht⟩
    refine ⟨s.take i, t, ?_, ?_⟩
    · conv_lhs => rw [← List.take_append_drop i s]
      rw [ht, List.append_assoc]
    · rw [List.length_take]
      omega
  · rintro ⟨pre, suf, rfl, rfl⟩
    constructor
    · rw [List.append_assoc, List.drop_left]
      exact isPrefixOf_exists.mpr ⟨suf, rfl⟩
    · simp only [List.length_append]
      omega

theorem strLt_cons_iff {x y : Char} {as bs : List Char} :
    strLt (x :: as) (y :: bs) = true ↔ x < y ∨ (x = y ∧ strLt as bs = true) := by
  simp only [strLt]
  by_cases h1 : x < y
  · rw [if_pos h1]
    exact ⟨fun _ => Or.inl h1, fun _ => rfl⟩
  · rw [if_neg h1]
    by_cases h2 : y < x
    · rw [if_pos h2]
      constructor
      · intro h
        exact (Bool.false_ne_true h).elim
      · rintro (h | ⟨rfl, _⟩)
        · exact absurd h h1
        · exact absurd h2 (lt_irrefl x)
    · rw [if_neg h2]
      have hxy : x = y := le_antisymm (not_lt.mp h2) (not_lt.mp h1)
      constructor
      · intro h
        exact Or.inr ⟨hxy, h⟩
      · rintro (h | ⟨_, h⟩)
        · exact absurd h h1
        · exact h

theorem strLt_trans {a b c : List Char} (hab : strLt a b = true) (hbc : strLt b c = true) :
    strLt a c = true := by
  induction a generalizing b c with
  | nil =>
    cases b with
    | nil => exact Bool.noConfusion hab
    | cons y bs =>
      cases c with
      | nil => exact Bool.noConfusion hbc
      | cons z cs => rfl
  | cons x as ih =>
    cases b with
    | nil => exact Bool.noConfusion hab
    | cons y bs =>
      cases c with
      | nil => exact Bool.noConfusion hbc
      | cons z cs =>
        rcases strLt_cons_iff.mp hab with h | ⟨rfl, h⟩
        · rcases strLt_cons_iff.mp hbc with h' | ⟨rfl, h'⟩
          · exact strLt_cons_iff.mpr (Or.inl (lt_trans h h'))
          · exact strLt_cons_iff.mpr (Or.inl h)
        · rcases strLt_cons_iff.mp hbc with h' | ⟨rfl, h'⟩
          · exact strLt_cons_iff.mpr (Or.inl h')
          · exact strLt_cons_iff.mpr (Or.inr ⟨rfl, ih h h'⟩)

theorem strLt_cons_same {x : Char} {as bs : List Char} :
    strLt (x :: as) (x :: bs) = strLt as bs := by
  simp [strLt, lt_irrefl]

theorem strLt_conn {a b : List Char} (h1 : strLt a b = false) (h2 : strLt b a = false) :
    a = b := by
  induction a generalizing b with
  | nil =>
    cases b with
    | nil => rfl
    | cons y bs => exact Bool.noConfusion h1
  | cons x as ih =>
    cases b with
    | nil => exact Bool.noConfusion h2
    | cons y bs =>
      by_cases hxy : x < y
      · have ht : strLt (x :: as) (y :: bs) = true := strLt_cons_iff.mpr (Or.inl hxy)
        rw [h1] at ht
        exact Bool.noConfusion ht
      · by_cases hyx : y < x
        · have ht : strLt (y :: bs) (x :: as) = true := strLt_cons_iff.mpr (Or.inl hyx)
          rw [h2] at ht
          exact Bool.noConfusion ht
        · have he : x = y := le_antisymm (not_lt.mp hyx) (not_lt.mp hxy)
          subst he
          rw [strLt_cons_same] at h1 h2
          rw [ih h1 h2]

theorem tagLe_trans (a b c : Tag) (hab : tagLe a b = true) (hbc : tagLe b c = true) :
    tagLe a c = true := by
  simp only [tagLe, Bool.or_eq_true, Bool.and_eq_true, beq_iff_eq, decide_eq_true_eq]
    at hab hbc ⊢
  rcases hab with h1 | ⟨e1, l1⟩
  · rcases hbc with h2 | ⟨e2, l2⟩
    · exact Or.inl (strLt_trans h1 h2)
    · exact Or.inl (e2 ▸ h1)
  · rcases hbc with h2 | ⟨e2, l2⟩
    · refine Or.inl ?_
      rw [e1]
      exact h2
    · exact Or.inr ⟨e1.trans e2, Nat.le_trans l1 l2⟩

theorem tagLe_total (a b : Tag) : (tagLe a b || tagLe b a) = true := by
  simp only [tagLe, Bool.or_eq_true, Bool.and_eq_true, beq_iff_eq, decide_eq_true_eq]
  by_cases h1 : strLt a.filename b.filename = true
  · exact Or.inl (Or.inl h1)
  · by_cases h2 : strLt b.filename a.filename = true
    · exact Or.inr (Or.inl h2)
    · simp only [Bool.not_eq_true] at h1 h2
      have he := strLt_conn h1 h2
      cases Nat.le_total a.line b.line with
      | inl h => exact Or.inl (Or.inr ⟨he, h⟩)
      | inr h => exact Or.inr (Or.inr ⟨he.symm, h⟩)

theorem mem_dedupFirst {x : List Char} {l : List (List Char)} :
    x ∈ dedupFirst l ↔ x ∈ l := by
  induction l with
  | nil => simp [dedupFirst]
  | cons y rest ih =>
    simp only [dedupFirst, List.mem_cons, List.mem_filter, ih, Bool.not_eq_true',
      beq_eq_false_iff_ne, ne_eq]
    by_cases hxy : x = y
    · simp [hxy]
    · simp [hxy]

theorem mem_insertSet {x y : List Char} {l : List (List Char)} :
    x ∈ insertSet y l → x = y ∨ x ∈ l := by
  unfold insertSet
  by_cases h : y ∈ l
  · rw [if_pos h]
    exact Or.inr
  · rw [if_neg h]
    intro hx
    exact List.mem_cons.mp hx

theorem foldl_applyStep_files {old new : List Char} :
    ∀ (chs : List Change) (acc : List (List Char) × FS) (f : List Char),
      f ∈ (chs.foldl (applyStep old new) acc).1 →
      f ∈ acc.1 ∨ ∃ ch ∈ chs, ch.file = f := by
  intro chs
  induction chs with
  | nil =>
    intro acc f h
    exact Or.inl h
  | cons ch chs ih =>
    intro acc f h
    rw [List.foldl_cons] at h
    rcases ih _ f h with h1 | ⟨ch', hch', hf⟩
    · unfold applyStep at h1
      split at h1
      · exact Or.inl h1
      · rcases mem_insertSet h1 with h2 | h2
        · exact Or.inr ⟨ch, List.mem_cons_self _ _, h2.symm⟩
        · exact Or.inl h2
    · exact Or.inr ⟨ch', List.mem_cons_of_mem _ hch', hf⟩

theorem scanFile_file {symbol fname content : List Char} {o : Occ}
    (h : o ∈ scanFile symbol fname content) : o.file = fname := by
  unfold scanFile at h
  rcases List.mem_flatMap.mp h with ⟨il, _, ho⟩
  split at ho
  · cases ho
  · split at ho
    · rcases List.mem_map.mp ho with ⟨pos, _, he⟩
      rw [← he]
    · cases ho

theorem scanFileIn_file {fs : FS} {symbol fname : List Char} {o : Occ}
    (h : o ∈ scanFileIn fs symbol fname) : o.file = fname := by
  unfold scanFileIn at h
  split at h
  · cases h
  · exact scanFile_file h

theorem occCount_flatMap {fs : FS} {s f : List Char} {o : Occ} (hof : o.file = f) :
    ∀ fns : List (List Char),
      ((fns.flatMap (fun fn => scanFileIn fs s fn)).countP (fun x => decide (x = o)))
        = (fns.countP (fun x => decide (x = f)))
          * ((scanFileIn fs s f).countP (fun x => decide (x = o))) := by
  intro fns
  induction fns with
  | nil => simp
  | cons fn rest ih =>
    rw [List.flatMap_cons, List.countP_append, List.countP_cons, ih]
    by_cases hfn : fn = f
    · subst hfn
      rw [if_pos (by simp)]
      ring
    · rw [if_neg (by simp [hfn])]
      have hz : ((scanFileIn fs s fn).countP (fun x => decide (x = o))) = 0 := by
        rw [List.countP_eq_zero]
        intro a ha hao
        rw [decide_eq_true_eq] at hao
        subst hao
        exact hfn ((scanFileIn_file ha).symm.trans hof)
      rw [hz]
      ring

theorem rewriteLineAux_fixed {old new line : List Char}
    (h : ∀ p, MatchAt old line p → is_in_comment line p = true) :
    ∀ fuel start, rewriteLineAux old new fuel line start = line := by
  intro fuel
  induction fuel with
  | zero =>
    intro start
    rfl
  | succ fuel ih =>
    intro start
    cases hf : findFrom line old start with
    | none => simp only [rewriteLineAux, hf]
    | some pos =>
      have hm := (findFrom_some hf).2.2.1
      have hc := h pos hm
      simp only [rewriteLineAux, hf, hc, if_true]
      exact ih _

theorem pySplit_sepFree {sep : Char} {x : List Char} (h : sep ∉ x) :
    pySplit sep x = [x] := by
  induction x with
  | nil => rfl
  | cons c rest ih =>
    have hc : ¬ c = sep := fun he => h (by rw [← he]; exact List.mem_cons_self c rest)
    have hrest : sep ∉ rest := fun hm => h (List.mem_cons_of_mem c hm)
    simp only [pySplit, if_neg hc, ih hrest]

theorem pySplit_append {sep : Char} {x t : List Char} (h : sep ∉ x) :
    pySplit sep (x ++ sep :: t) = x :: pySplit sep t := by
  induction x with
  | nil => simp [pySplit]
  | cons c rest ih =>
    have hc : ¬ c = sep := fun he => h (by rw [← he]; exact List.mem_cons_self c rest)
    have hrest : sep ∉ rest := fun hm => h (List.mem_cons_of_mem c hm)
    rw [List.cons_append]
    simp only [pySplit, if_neg hc, ih hrest]

theorem pySplit_joinSep {sep : Char} :
    ∀ parts : List (List Char), parts ≠ [] → (∀ x ∈ parts, sep ∉ x) →
      pySplit sep (joinSep sep parts) = parts := by
  intro parts
  induction parts with
  | nil =>
    intro h _
    exact absurd rfl h
  | cons x rest ih =>
    intro _ hfree
    cases rest with
    | nil =>
      have hx := hfree x (List.mem_cons_self x [])
      simp only [joinSep]
      exact pySplit_sepFree hx
    | cons y ys =>
      have hx := hfree x (List.mem_cons_self _ _)
      have hrest : ∀ z ∈ y :: ys, sep ∉ z := fun z hz => hfree z (List.mem_cons_of_mem x hz)
      simp only [joinSep]
      rw [pySplit_append hx, ih (by simp) hrest]

/-- C1: the claim fails on the code. In the end-to-end scenario the only line
of `src/a.c` is a code line with a trailing comment, and `skipped_comments`
counts whole comment lines, so it is 0 and not 1; and the proposed new line is
produced by whole-line `str.replace`, which also rewrites the comment-side
`foo`, giving `... // calls bar` rather than leaving the comment untouched. -/
theorem c1_counterexample :
    pvC1.skipped_comments = 0 ∧
    pvC1.changes.map (fun c => c.new_line)
      = [chars "int bar() { return 1; } // calls bar"] ∧
    ¬ (pvC1.skipped_comments = 1 ∧
       pvC1.changes.map (fun c => c.new_line)
         = [chars "int bar() { return 1; } // calls foo"]) := by
  refine ⟨by decide, by decide, ?_⟩
  intro h
  exact absurd h.1 (by decide)

/-- C1 (amended): in the end-to-end scenario, `preview("foo","bar")` reports
exactly one occurrence, at line 1 column 5 (the `foo` following `int `),
its `skippedCommentCount` is 0 (the trailing comment sits on a code line and
only whole comment lines are counted), and the proposed new line replaces
both instances: `int bar() { return 1; } // calls bar`. -/
theorem c1_theorem :
    pvC1.total_occurrences = 1 ∧
    pvC1.changes = [⟨chars "src/a.c", 1, 5,
      chars "int foo() { return 1; } // calls foo",
      chars "int bar() { return 1; } // calls bar"⟩] ∧
    pvC1.files_affected = [chars "src/a.c"] ∧
    pvC1.skipped_comments = 0 := by
  refine ⟨by decide, by decide, by decide, by decide⟩

/-- C2: the claim fails on the code. The whole line is split on tabs first and
only the fourth field is scanned for `key:value` pairs, so in
`n\tf\tc\tkind:function\tline:10` the `line:10` pair sits in the fifth field
and is ignored: the record has `line = 0`, not 10. -/
theorem c2_counterexample :
    parse_tag_line (chars "n\tf\tc\tkind:function\tline:10") 1
      = some ⟨chars "n", chars "f", chars "c", chars "function", 0, [], [], [], [], 1⟩ ∧
    (parse_tag_line (chars "n\tf\tc\tkind:function\tline:10") 1).map (fun t => t.line)
      ≠ some 10 := by
  refine ⟨by decide, by decide⟩

/-- C2 (amended): the parser strips an optional trailing `;"` from the fourth
field and records the known keys found among that field's `key:value` pairs,
but tab-separated fields after the fourth are ignored entirely (the line was
already split on tabs, so the fourth field holds at most one pair): parsing is
unchanged when the fields past the fourth are dropped, and
`n\tf\tc\tkind:function\tline:10` yields kind `function` with line 0. -/
theorem c2_theorem :
    (∀ (p0 p1 p2 p3 : List Char) (rest : List (List Char)) (n : Nat),
      (∀ x ∈ p0 :: p1 :: p2 :: p3 :: rest, '\t' ∉ x) →
      parse_tag_line (joinSep '\t' (p0 :: p1 :: p2 :: p3 :: rest)) n
        = parse_tag_line (joinSep '\t' [p0, p1, p2, p3]) n) ∧
    (parse_tag_line (chars "n\tf\tc\tkind:function\tline:10") 1).map (fun t => t.kind)
      = some (chars "function") ∧
    (parse_tag_line (chars "n\tf\tc\tkind:function\tline:10") 1).map (fun t => t.line)
      = some 0 := by
  refine ⟨?_, by decide, by decide⟩
  intro p0 p1 p2 p3 rest n hfree
  have hsub : ∀ x ∈ ([p0, p1, p2, p3] : List (List Char)),
      x ∈ p0 :: p1 :: p2 :: p3 :: rest := by
    intro z hz
    simp only [List.mem_cons, List.not_mem_nil, or_false] at hz
    simp only [List.mem_cons]
    tauto
  have h1 : pySplit '\t' (joinSep '\t' (p0 :: p1 :: p2 :: p3 :: rest))
      = p0 :: p1 :: p2 :: p3 :: rest := pySplit_joinSep _ (by simp) hfree
  have h2 : pySplit '\t' (joinSep '\t' [p0, p1, p2, p3]) = [p0, p1, p2, p3] :=
    pySplit_joinSep _ (by simp) (fun x hx => hfree x (hsub x hx))
  unfold parse_tag_line
  rw [h1, h2]

/-- C2 witness: the amended ignore-later-fields statement applied to the
concrete five-field line of the counterexample. -/
theorem c2_witness :
    parse_tag_line (joinSep '\t'
        [chars "n", chars "f", chars "c", chars "kind:function", chars "line:10"]) 1
      = parse_tag_line (joinSep '\t'
        [chars "n", chars "f", chars "c", chars "kind:function"]) 1 :=
  c2_theorem.1 (chars "n") (chars "f") (chars "c") (chars "kind:function")
    [chars "line:10"] 1 (by decide)

/-- C3: the claim fails on the code at the boundary case. In `/*ab*/x` the
`/*` begins at 0 and its matching `*/` begins exactly at offset 4, where the
claim predicts true, but the code requires the `*/` to begin strictly after
the offset (`block_end > position`) and returns false. -/
theorem c3_counterexample :
    is_in_comment (chars "/*ab*/x") 4 = false ∧
    findSub slashStar (chars "/*ab*/x") = some 0 ∧
    findSub starSlash (chars "/*ab*/x") = some 4 := by
  refine ⟨by decide, by decide, by decide⟩

/-- C3 (amended): `isInComment(line, offset)` is true exactly when a `//`
occurs strictly before the offset, or the first `/*` occurs strictly before
the offset and every `*/` at or after that `/*` (in particular the matching
one) begins strictly after the offset — so when the matching `*/` begins
exactly at the offset the result is false; for any offset at or before the
first `//`, with no block comment involved, the result is false. -/
theorem c3_theorem : ∀ (line : List Char) (off : Nat),
    is_in_comment line off = true ↔
      ((∃ p, p < off ∧ MatchAt slashSlash line p) ∨
       (∃ b, b < off ∧ MatchAt slashStar line b ∧
          (∀ j, j < b → ¬ MatchAt slashStar line j) ∧
          (∀ e, b ≤ e → MatchAt starSlash line e → off < e))) := by
  intro line off
  unfold is_in_comment
  constructor
  · intro h
    rw [Bool.or_eq_true] at h
    rcases h with h1 | h2
    · cases hss : findSub slashSlash line with
      | none =>
        rw [hss] at h1
        exact Bool.noConfusion h1
      | some p =>
        rw [hss] at h1
        rw [decide_eq_true_eq] at h1
        exact Or.inl ⟨p, h1, findSub_matchAt hss⟩
    · cases hbs : findSub slashStar line with
      | none =>
        rw [hbs] at h2
        exact Bool.noConfusion h2
      | some b =>
        simp only [hbs] at h2
        by_cases hb : b < off
        · rw [if_pos hb] at h2
          have hblen : b ≤ line.length := by
            have := matchAt_le (findSub_matchAt hbs)
            omega
          cases hfe : findFrom line starSlash b with
          | none =>
            refine Or.inr ⟨b, hb, findSub_matchAt hbs, findSub_min hbs, ?_⟩
            intro e hbe hme
            exact absurd hme (findFrom_none hfe hblen e hbe)
          | some e0 =>
            simp only [hfe, decide_eq_true_eq] at h2
            rcases findFrom_some hfe with ⟨_, hbe0, hme0, hmin⟩
            refine Or.inr ⟨b, hb, findSub_matchAt hbs, findSub_min hbs, ?_⟩
            intro e hbe hme
            by_contra hoe
            have helt : e < e0 := by omega
            exact hmin e hbe helt hme
        · rw [if_neg hb] at h2
          exact Bool.noConfusion h2
  · intro h
    rw [Bool.or_eq_true]
    rcases h with ⟨p, hpo, hpm⟩ | ⟨b, hbo, hbm, hbmin, hall⟩
    · left
      rcases findSub_of_matchAt hpm with ⟨j, hj, hji⟩
      rw [hj]
      rw [decide_eq_true_eq]
      omega
    · right
      have hsb : findSub slashStar line = some b := by
        cases hf : findSub slashStar line with
        | none => exact absurd hbm (findSub_none hf b)
        | some b0 =>
          have h1 : b0 ≤ b := by
            by_contra hlt
            exact findSub_min hf b (by omega) hbm
          have h2 : b ≤ b0 := by
            by_contra hlt
            exact hbmin b0 (by omega) (findSub_matchAt hf)
          have hbb : b0 = b := Nat.le_antisymm h1 h2
          rw [hbb]
      simp only [hsb]
      rw [if_pos hbo]
      cases hfe : findFrom line starSlash b with
      | none => simp only [hfe]
      | some e0 =>
        rcases findFrom_some hfe with ⟨_, hbe0, hme0, _⟩
        simp only [hfe, decide_eq_true_eq]
        exact hall e0 hbe0 hme0

/-- C4: confirmed. Every file in the changed-file set of the apply phase comes
from some proposed change, and every change's file is one of the occurrence
files that make up the preview's `files_affected`. -/
theorem c4_theorem : ∀ (tags : List Tag) (fs : FS) (old new f : List Char),
    f ∈ (rename_symbol tags fs old new).1 →
    f ∈ (preview_rename tags fs old new).files_affected := by
  intro tags fs old new f h
  unfold rename_symbol at h
  rcases foldl_applyStep_files _ _ f h with h1 | ⟨ch, hch, hf⟩
  · exact absurd h1 (List.not_mem_nil f)
  · have hch' : ch ∈ (find_symbol_occurrences tags fs old).map (fun o =>
        ({ file := o.file, line := o.line, column := o.column,
           old_line := o.context, new_line := replaceAll old new o.context } : Change)) := hch
    rcases List.mem_map.mp hch' with ⟨o, ho, he⟩
    have hfile : ch.file = o.file := by rw [← he]
    have hmem : f ∈ (find_symbol_occurrences tags fs old).map (fun o => o.file) :=
      List.mem_map.mpr ⟨o, ho, by rw [← hfile]; exact hf⟩
    exact mem_dedupFirst.mpr hmem

/-- C4 witness: in the concrete scenario the apply phase changes file `a`,
which the theorem places inside the preview's `files_affected`. -/
theorem c4_witness :
    chars "a" ∈ (preview_rename tags4 fs4 (chars "foo") (chars "bar")).files_affected :=
  c4_theorem tags4 fs4 (chars "foo") (chars "bar") (chars "a") (by decide)

/-- C5: confirmed. When an exact-name match exists, `find_definition` returns
only records whose name is exactly the symbol; otherwise it returns exactly
the `find_symbols` fallback, whose members are case-insensitive substring
matches and (since no exact match exists) never named exactly the symbol, so
the two categories are never mixed. -/
theorem c5_theorem : ∀ (tags : List Tag) (s : List Char),
    ((∃ t ∈ tags, t.name = s) →
      ∀ r ∈ find_definition tags s, r.name = s) ∧
    ((¬ ∃ t ∈ tags, t.name = s) →
      find_definition tags s = find_symbols tags s none none ∧
      ∀ r ∈ find_definition tags s,
        substrOf (s.map Char.toLower) (r.name.map Char.toLower) = true ∧ r.name ≠ s) := by
  intro tags s
  have hiff : (tags.filter (fun t => t.name == s)).isEmpty = true ↔
      ¬ ∃ t ∈ tags, t.name = s := by
    rw [List.isEmpty_iff, List.filter_eq_nil_iff]
    constructor
    · rintro hall ⟨t, ht, hname⟩
      exact hall t ht (beq_iff_eq.mpr hname)
    · intro hne a ha hbeq
      exact hne ⟨a, ha, beq_iff_eq.mp hbeq⟩
  have hform : find_symbols tags s none none
      = (tags.filter (fun t =>
          substrOf (s.map Char.toLower) (t.name.map Char.toLower))).mergeSort tagLe := rfl
  constructor
  · intro hex r hr
    have hne : ¬ (tags.filter (fun t => t.name == s)).isEmpty = true := by
      rw [hiff]
      exact not_not_intro hex
    unfold find_definition at hr
    rw [if_neg hne] at hr
    exact beq_iff_eq.mp (List.mem_filter.mp hr).2
  · intro hnex
    have hemp : (tags.filter (fun t => t.name == s)).isEmpty = true := hiff.mpr hnex
    have heq : find_definition tags s = find_symbols tags s none none := by
      unfold find_definition
      rw [if_pos hemp]
    refine ⟨heq, ?_⟩
    intro r hr
    rw [heq, hform] at hr
    have hr2 := List.mem_mergeSort.mp hr
    have hr3 := List.mem_filter.mp hr2
    refine ⟨hr3.2, ?_⟩
    intro he
    exact hnex ⟨r, hr3.1, he⟩

/-- C5 witness: in the concrete scenario the exact case yields only records
named `foo`, and a symbol with no exact match falls back to `find_symbols`. -/
theorem c5_witness :
    tag5a.name = chars "foo" ∧
    find_definition tags5 (chars "zz") = find_symbols tags5 (chars "zz") none none :=
  ⟨(c5_theorem tags5 (chars "foo")).1 (by decide) tag5a (by decide),
   ((c5_theorem tags5 (chars "zz")).2 (by decide)).1⟩

/-- C6: confirmed. `find_references` returns exactly the records of the index
whose name or typeref contains the symbol as a (case-sensitive) substring,
before the adapter-level cap. -/
theorem c6_theorem : ∀ (tags : List Tag) (s : List Char) (r : Tag),
    r ∈ find_references tags s ↔
      r ∈ tags ∧ ((∃ p q, r.name = p ++ s ++ q) ∨ (∃ p q, r.typeref = p ++ s ++ q)) := by
  intro tags s r
  unfold find_references
  rw [List.mem_filter, Bool.or_eq_true, substrOf_iff, substrOf_iff]

/-- C7: the claim fails on the code. With two tags both named `x`, the first
in file `b` and the second in file `a`, `find_definition` returns the exact
matches in tag-table order `[b, a]`, which is not sorted ascending by
`(file, line)`. -/
theorem c7_counterexample :
    isSortedByFileLine (find_definition tags7 (chars "x")) = false ∧
    (find_definition tags7 (chars "x")).map (fun t => t.filename)
      = [chars "b", chars "a"] := by
  refine ⟨by decide, by decide⟩

/-- C7 (amended): the exact-match case of `find_definition` returns the exact
matches in tag-table order, not sorted; only the substring fallback returns
`find_symbols`, whose result is sorted ascending by `(file, line)`. -/
theorem c7_theorem : ∀ (tags : List Tag) (s : List Char),
    ((∃ t ∈ tags, t.name = s) →
      find_definition tags s = tags.filter (fun t => t.name == s)) ∧
    ((¬ ∃ t ∈ tags, t.name = s) →
      find_definition tags s = find_symbols tags s none none) ∧
    List.Pairwise (fun a b => tagLe a b = true) (find_symbols tags s none none) := by
  intro tags s
  have hiff : (tags.filter (fun t => t.name == s)).isEmpty = true ↔
      ¬ ∃ t ∈ tags, t.name = s := by
    rw [List.isEmpty_iff, List.filter_eq_nil_iff]
    constructor
    · rintro hall ⟨t, ht, hname⟩
      exact hall t ht (beq_iff_eq.mpr hname)
    · intro hne a ha hbeq
      exact hne ⟨a, ha, beq_iff_eq.mp hbeq⟩
  refine ⟨?_, ?_, ?_⟩
  · intro hex
    have hne : ¬ (tags.filter (fun t => t.name == s)).isEmpty = true := by
      rw [hiff]
      exact not_not_intro hex
    unfold find_definition
    rw [if_neg hne]
  · intro hnex
    unfold find_definition
    rw [if_pos (hiff.mpr hnex)]
  · have hform : find_symbols tags s none none
        = (tags.filter (fun t =>
            substrOf (s.map Char.toLower) (t.name.map Char.toLower))).mergeSort tagLe := rfl
    rw [hform]
    exact List.sorted_mergeSort tagLe_trans tagLe_total _

/-- C7 witness: the amended statement applied to the counterexample table for
the exact case, and to a query with no exact match for the fallback case. -/
theorem c7_witness :
    find_definition tags7 (chars "x") = tags7.filter (fun t => t.name == chars "x") ∧
    find_definition tags7 (chars "zz") = find_symbols tags7 (chars "zz") none none :=
  ⟨(c7_theorem tags7 (chars "x")).1 (by decide),
   (c7_theorem tags7 (chars "zz")).2.1 (by decide)⟩

/-- C8: the claim fails on the code for the unreadable case. A tag table file
that exists but cannot be read makes the unguarded `open` in `_load_tags`
raise instead of yielding an empty index. -/
theorem c8_counterexample :
    load_tags_result [(chars "tags", none)] (chars "tags") = Except.error () ∧
    load_tags_result [(chars "tags", none)] (chars "tags") ≠ Except.ok [] := by
  refine ⟨rfl, ?_⟩
  intro h
  exact Except.noConfusion h

/-- C8 (amended): malformed lines (fewer than three tab-separated fields)
parse to no record, a missing tag table yields an empty record sequence
rather than an error, and all queries over the empty index return empty
results; an existing-but-unreadable tag table, however, raises. -/
theorem c8_theorem : ∀ (fs : FS) (p line : List Char) (n : Nat) (q s : List Char),
    (fsEntry fs p = none → load_tags_result fs p = Except.ok []) ∧
    ((pySplit '\t' line).length < 3 → parse_tag_line line n = none) ∧
    find_symbols [] q none none = [] ∧
    find_definition [] s = [] ∧
    find_references [] s = [] := by
  intro fs p line n q s
  refine ⟨?_, ?_, ?_, ?_, rfl⟩
  · intro h
    unfold load_tags_result
    rw [h]
  · intro h
    unfold parse_tag_line
    cases hsp : pySplit '\t' line with
    | nil => rfl
    | cons p0 r0 =>
      cases r0 with
      | nil => rfl
      | cons p1 r1 =>
        cases r1 with
        | nil => rfl
        | cons p2 r2 =>
          rw [hsp] at h
          simp only [List.length_cons] at h
          omega
  · have hnil : find_symbols [] q none none = ([] : List Tag).mergeSort tagLe := rfl
    rw [hnil, List.mergeSort_nil]
  · have hnil : find_definition [] s = ([] : List Tag).mergeSort tagLe := rfl
    rw [hnil, List.mergeSort_nil]

/-- C8 witness: the amended statement at an empty file system and a one-field
line. -/
theorem c8_witness :
    load_tags_result [] (chars "tags") = Except.ok [] ∧
    parse_tag_line (chars "justonefield") 3 = none :=
  ⟨(c8_theorem [] (chars "tags") (chars "justonefield") 3 [] []).1 (by decide),
   (c8_theorem [] (chars "tags") (chars "justonefield") 3 [] []).2.1 (by decide)⟩

/-- C9: confirmed. The occurrence list iterates the raw reference list, so if
`k` reference records name file `f`, every occurrence record of `f` appears
`k` times the number of times the single scan of `f` produces it; and the
preview's `total_occurrences` and `changes` count each duplicate. -/
theorem c9_theorem : ∀ (tags : List Tag) (fs : FS) (s nw f : List Char) (o : Occ),
    o.file = f →
    ((find_symbol_occurrences tags fs s).countP (fun x => decide (x = o))
      = ((findAllRefFiles tags s).countP (fun x => decide (x = f)))
        * ((scanFileIn fs s f).countP (fun x => decide (x = o)))) ∧
    (preview_rename tags fs s nw).total_occurrences
      = (find_symbol_occurrences tags fs s).length ∧
    (preview_rename tags fs s nw).changes.length
      = (find_symbol_occurrences tags fs s).length := by
  intro tags fs s nw f o hof
  refine ⟨occCount_flatMap hof _, rfl, ?_⟩
  exact List.length_map _ _

/-- C9 witness: with two references naming file `a`, the single occurrence of
`foo` in `a` is reported twice. -/
theorem c9_witness :
    ((find_symbol_occurrences tags9 fs9 (chars "foo")).countP (fun x => decide (x = o9))
      = ((findAllRefFiles tags9 (chars "foo")).countP (fun x => decide (x = chars "a")))
        * ((scanFileIn fs9 (chars "foo") (chars "a")).countP (fun x => decide (x = o9)))) ∧
    (find_symbol_occurrences tags9 fs9 (chars "foo")).countP (fun x => decide (x = o9)) = 2 :=
  ⟨(c9_theorem tags9 fs9 (chars "foo") (chars "bar") (chars "a") o9 (by decide)).1,
   by decide⟩

theorem getLast?_cons_cases {α : Type} {a e : α} {l : List α}
    (h : (a :: l).getLast? = some e) : (l = [] ∧ e = a) ∨ l.getLast? = some e := by
  cases l with
  | nil =>
    left
    refine ⟨rfl, ?_⟩
    rw [List.getLast?_singleton] at h
    injection h with h
    exact h.symm
  | cons b l' =>
    right
    rw [List.getLast?_cons_cons] at h
    exact h

theorem rewriteLineEvents_succ_none {old new cur : List Char} {fuel start : Nat}
    (hf : findFrom cur old start = none) :
    rewriteLineEvents old new (fuel + 1) cur start = (cur, []) := by
  simp [rewriteLineEvents, hf]

theorem rewriteLineEvents_succ_skip {old new cur : List Char} {fuel start pos : Nat}
    (hf : findFrom cur old start = some pos) (hc : is_in_comment cur pos = true) :
    rewriteLineEvents old new (fuel + 1) cur start
      = ((rewriteLineEvents old new fuel cur (pos + 1)).1,
         ⟨cur, pos, false⟩ :: (rewriteLineEvents old new fuel cur (pos + 1)).2) := by
  simp [rewriteLineEvents, hf, hc]

theorem rewriteLineEvents_succ_replace {old new cur : List Char} {fuel start pos : Nat}
    (hf : findFrom cur old start = some pos) (hc : is_in_comment cur pos = false) :
    rewriteLineEvents old new (fuel + 1) cur start
      = ((rewriteLineEvents old new fuel
            (cur.take pos ++ new ++ cur.drop (pos + old.length)) (pos + new.length)).1,
         ⟨cur, pos, true⟩ :: (rewriteLineEvents old new fuel
            (cur.take pos ++ new ++ cur.drop (pos + old.length)) (pos + new.length)).2) := by
  simp [rewriteLineEvents, hf, hc]

theorem rewriteLineAux_succ_none {old new cur : List Char} {fuel start : Nat}
    (hf : findFrom cur old start = none) :
    rewriteLineAux old new (fuel + 1) cur start = cur := by
  simp [rewriteLineAux, hf]

theorem rewriteLineAux_succ_skip {old new cur : List Char} {fuel start pos : Nat}
    (hf : findFrom cur old start = some pos) (hc : is_in_comment cur pos = true) :
    rewriteLineAux old new (fuel + 1) cur start
      = rewriteLineAux old new fuel cur (pos + 1) := by
  simp [rewriteLineAux, hf, hc]

theorem rewriteLineAux_succ_replace {old new cur : List Char} {fuel start pos : Nat}
    (hf : findFrom cur old start = some pos) (hc : is_in_comment cur pos = false) :
    rewriteLineAux old new (fuel + 1) cur start
      = rewriteLineAux old new fuel
          (cur.take pos ++ new ++ cur.drop (pos + old.length)) (pos + new.length) := by
  simp [rewriteLineAux, hf, hc]

theorem rewriteLineEvents_fst (old new : List Char) :
    ∀ fuel cur start,
      (rewriteLineEvents old new fuel cur start).1
        = rewriteLineAux old new fuel cur start := by
  intro fuel
  induction fuel with
  | zero =>
    intro cur start
    rfl
  | succ fuel ih =>
    intro cur start
    cases hf : findFrom cur old start with
    | none =>
      rw [rewriteLineEvents_succ_none hf, rewriteLineAux_succ_none hf]
    | some pos =>
      by_cases hc : is_in_comment cur pos = true
      · rw [rewriteLineEvents_succ_skip hf hc, rewriteLineAux_succ_skip hf hc]
        exact ih cur (pos + 1)
      · rw [Bool.not_eq_true] at hc
        rw [rewriteLineEvents_succ_replace hf hc, rewriteLineAux_succ_replace hf hc]
        exact ih _ _

theorem rewriteLineEvents_head (old new : List Char) :
    ∀ fuel cur start e,
      (rewriteLineEvents old new fuel cur start).2.head? = some e → e.state = cur := by
  intro fuel cur start e
  cases fuel with
  | zero =>
    intro h
    exact Option.noConfusion h
  | succ fuel =>
    cases hf : findFrom cur old start with
    | none =>
      intro h
      rw [rewriteLineEvents_succ_none hf] at h
      exact Option.noConfusion h
    | some pos =>
      by_cases hc : is_in_comment cur pos = true
      · intro h
        rw [rewriteLineEvents_succ_skip hf hc] at h
        have h' : some (⟨cur, pos, false⟩ : RewriteEvent) = some e := h
        injection h' with h'
        rw [← h']
      · intro h
        rw [Bool.not_eq_true] at hc
        rw [rewriteLineEvents_succ_replace hf hc] at h
        have h' : some (⟨cur, pos, true⟩ : RewriteEvent) = some e := h
        injection h' with h'
        rw [← h']

theorem rewriteLineEvents_nil (old new : List Char) :
    ∀ fuel cur start,
      (rewriteLineEvents old new fuel cur start).2 = [] →
      (rewriteLineEvents old new fuel cur start).1 = cur := by
  intro fuel cur start
  cases fuel with
  | zero =>
    intro _
    rfl
  | succ fuel =>
    cases hf : findFrom cur old start with
    | none =>
      intro _
      rw [rewriteLineEvents_succ_none hf]
    | some pos =>
      by_cases hc : is_in_comment cur pos = true
      · rw [rewriteLineEvents_succ_skip hf hc]
        intro h
        exact absurd h (List.cons_ne_nil _ _)
      · rw [Bool.not_eq_true] at hc
        rw [rewriteLineEvents_succ_replace hf hc]
        intro h
        exact absurd h (List.cons_ne_nil _ _)

theorem rewriteLineEvents_sound (old new : List Char) :
    ∀ fuel cur start, ∀ ev ∈ (rewriteLineEvents old new fuel cur start).2,
      MatchAt old ev.state ev.pos ∧
      (is_in_comment ev.state ev.pos = true → ev.replaced = false) ∧
      (ev.replaced = true → is_in_comment ev.state ev.pos = false) := by
  intro fuel
  induction fuel with
  | zero =>
    intro cur start ev h
    exact absurd h (List.not_mem_nil ev)
  | succ fuel ih =>
    intro cur start ev h
    cases hf : findFrom cur old start with
    | none =>
      rw [rewriteLineEvents_succ_none hf] at h
      exact absurd h (List.not_mem_nil ev)
    | some pos =>
      have hm := (findFrom_some hf).2.2.1
      by_cases hc : is_in_comment cur pos = true
      · rw [rewriteLineEvents_succ_skip hf hc] at h
        have h' : ev = ⟨cur, pos, false⟩ ∨
            ev ∈ (rewriteLineEvents old new fuel cur (pos + 1)).2 := List.mem_cons.mp h
        rcases h' with rfl | h'
        · exact ⟨hm, fun _ => rfl, fun hr => Bool.noConfusion hr⟩
        · exact ih cur (pos + 1) ev h'
      · rw [Bool.not_eq_true] at hc
        rw [rewriteLineEvents_succ_replace hf hc] at h
        have h' : ev = ⟨cur, pos, true⟩ ∨
            ev ∈ (rewriteLineEvents old new fuel
              (cur.take pos ++ new ++ cur.drop (pos + old.length))
              (pos + new.length)).2 := List.mem_cons.mp h
        rcases h' with rfl | h'
        · refine ⟨hm, ?_, fun _ => hc⟩
          intro hcc
          rw [hc] at hcc
          exact Bool.noConfusion hcc
        · exact ih _ _ ev h'

theorem rewriteLineEvents_chain (old new : List Char) :
    ∀ fuel cur start,
      List.Chain' (fun e1 e2 : RewriteEvent => e1.replaced = false → e2.state = e1.state)
        (rewriteLineEvents old new fuel cur start).2 := by
  intro fuel
  induction fuel with
  | zero =>
    intro cur start
    exact List.chain'_nil
  | succ fuel ih =>
    intro cur start
    cases hf : findFrom cur old start with
    | none =>
      rw [rewriteLineEvents_succ_none hf]
      exact List.chain'_nil
    | some pos =>
      by_cases hc : is_in_comment cur pos = true
      · rw [rewriteLineEvents_succ_skip hf hc]
        show List.Chain' _ ((⟨cur, pos, false⟩ : RewriteEvent)
          :: (rewriteLineEvents old new fuel cur (pos + 1)).2)
        refine List.chain'_cons'.mpr ⟨?_, ih cur (pos + 1)⟩
        intro y hy _
        exact rewriteLineEvents_head old new fuel cur (pos + 1) y (Option.mem_def.mp hy)
      · rw [Bool.not_eq_true] at hc
        rw [rewriteLineEvents_succ_replace hf hc]
        show List.Chain' _ ((⟨cur, pos, true⟩ : RewriteEvent)
          :: (rewriteLineEvents old new fuel
            (cur.take pos ++ new ++ cur.drop (pos + old.length)) (pos + new.length)).2)
        refine List.chain'_cons'.mpr ⟨?_, ih _ _⟩
        intro y hy hrep
        exact Bool.noConfusion hrep

theorem rewriteLineEvents_last (old new : List Char) :
    ∀ fuel cur start e,
      (rewriteLineEvents old new fuel cur start).2.getLast? = some e →
      e.replaced = false →
      (rewriteLineEvents old new fuel cur start).1 = e.state := by
  intro fuel
  induction fuel with
  | zero =>
    intro cur start e h _
    exact Option.noConfusion h
  | succ fuel ih =>
    intro cur start e h hrep
    cases hf : findFrom cur old start with
    | none =>
      rw [rewriteLineEvents_succ_none hf] at h
      exact Option.noConfusion h
    | some pos =>
      by_cases hc : is_in_comment cur pos = true
      · rw [rewriteLineEvents_succ_skip hf hc] at h ⊢
        have h' : ((⟨cur, pos, false⟩ : RewriteEvent)
            :: (rewriteLineEvents old new fuel cur (pos + 1)).2).getLast? = some e := h
        rcases getLast?_cons_cases h' with ⟨hT, he⟩ | h''
        · rw [he]
          exact rewriteLineEvents_nil old new fuel cur (pos + 1) hT
        · exact ih cur (pos + 1) e h'' hrep
      · rw [Bool.not_eq_true] at hc
        rw [rewriteLineEvents_succ_replace hf hc] at h ⊢
        have h' : ((⟨cur, pos, true⟩ : RewriteEvent)
            :: (rewriteLineEvents old new fuel
              (cur.take pos ++ new ++ cur.drop (pos + old.length))
              (pos + new.length)).2).getLast? = some e := h
        rcases getLast?_cons_cases h' with ⟨hT, he⟩ | h''
        · rw [he] at hrep
          exact Bool.noConfusion hrep
        · exact ih _ _ e h'' hrep

/-- C10: confirmed. In the apply phase, a comment line or a line not
containing the old symbol is written back unchanged. Within a rewritten line,
the guarantee is per match: the instrumented run of the rewrite loop (which
computes exactly `rewriteLine`) records one event per match the scan meets,
and every event whose start position is classified as inside a comment is
never substituted; at such an event the line state is passed to the next
event unchanged, and if it is the last event the final line equals its state
— so comment-positioned instances are left untouched, and every substitution
the loop makes happens at a match position classified as not inside a
comment. Finally, when every match position in a line is comment-classified
the whole line is unchanged. -/
theorem c10_theorem : ∀ (old new line : List Char),
    (is_comment_line line = true → applyLineTransform old new line = line) ∧
    (substrOf old line = false → applyLineTransform old new line = line) ∧
    ((rewriteLineEvents old new (line.length + 2) line 0).1 = rewriteLine old new line) ∧
    (∀ ev ∈ (rewriteLineEvents old new (line.length + 2) line 0).2,
        MatchAt old ev.state ev.pos ∧
        (is_in_comment ev.state ev.pos = true → ev.replaced = false) ∧
        (ev.replaced = true → is_in_comment ev.state ev.pos = false)) ∧
    List.Chain' (fun e1 e2 : RewriteEvent => e1.replaced = false → e2.state = e1.state)
      (rewriteLineEvents old new (line.length + 2) line 0).2 ∧
    (∀ e, (rewriteLineEvents old new (line.length + 2) line 0).2.getLast? = some e →
        e.replaced = false →
        (rewriteLineEvents old new (line.length + 2) line 0).1 = e.state) ∧
    ((∀ p, MatchAt old line p → is_in_comment line p = true) →
      applyLineTransform old new line = line) := by
  intro old new line
  refine ⟨?_, ?_, rewriteLineEvents_fst old new _ line 0,
    fun ev h => rewriteLineEvents_sound old new _ line 0 ev h,
    rewriteLineEvents_chain old new _ line 0,
    fun e h hrep => rewriteLineEvents_last old new _ line 0 e h hrep, ?_⟩
  · intro h
    unfold applyLineTransform
    rw [h]
    simp
  · intro h
    unfold applyLineTransform
    rw [h]
    simp
  · intro h
    unfold applyLineTransform
    by_cases hg : (substrOf old line && !is_comment_line line) = true
    · rw [if_pos hg]
      exact rewriteLineAux_fixed h _ _
    · rw [if_neg hg]

/-- C10 witness: a comment line and a symbol-free line come back unchanged;
on the mixed line `foo(); // foo` the loop substitutes the code-side match at
position 0 (a non-comment position), meets the comment-side match at
position 10 of `bar(); // foo` without substituting, and the final line is
that untouched state `bar(); // foo`; the all-comment case at `x; // foo` is
also unchanged. -/
theorem c10_witness :
    applyLineTransform (chars "foo") (chars "bar") (chars "// foo") = chars "// foo" ∧
    applyLineTransform (chars "foo") (chars "bar") (chars "abc") = chars "abc" ∧
    (is_in_comment evC10b.state evC10b.pos = true → evC10b.replaced = false) ∧
    (evC10a.replaced = true → is_in_comment evC10a.state evC10a.pos = false) ∧
    (rewriteLineEvents (chars "foo") (chars "bar")
        ((chars "foo(); // foo").length + 2) (chars "foo(); // foo") 0).1
      = evC10b.state ∧
    applyLineTransform (chars "foo") (chars "bar") (chars "foo(); // foo")
      = chars "bar(); // foo" ∧
    applyLineTransform (chars "foo") (chars "bar") (chars "x; // foo") = chars "x; // foo" :=
  ⟨(c10_theorem (chars "foo") (chars "bar") (chars "// foo")).1 (by decide),
   (c10_theorem (chars "foo") (chars "bar") (chars "abc")).2.1 (by decide),
   ((c10_theorem (chars "foo") (chars "bar") (chars "foo(); // foo")).2.2.2.1
      evC10b (by decide)).2.1,
   ((c10_theorem (chars "foo") (chars "bar") (chars "foo(); // foo")).2.2.2.1
      evC10a (by decide)).2.2,
   (c10_theorem (chars "foo") (chars "bar") (chars "foo(); // foo")).2.2.2.2.2.1
      evC10b (by decide) (by decide),
   by decide,
   (c10_theorem (chars "foo") (chars "bar") (chars "x; // foo")).2.2.2.2.2.2 (fun p hm => by
     have hb : matchAtB (chars "foo") (chars "x; // foo") p = true := matchAtB_iff.mpr hm
     have hle := matchAt_le hm
     have hl1 : (chars "foo").length = 3 := by decide
     have hl2 : (chars "x; // foo").length = 9 := by decide
     have hlt : p < 10 := by omega
     exact (by decide :
       ∀ q, q < 10 → matchAtB (chars "foo") (chars "x; // foo") q = true →
         is_in_comment (chars "x; // foo") q = true) p hlt hb)⟩
